import Mathlib

/-!
Shallow embedding of the core pipeline of the Fresno Music Calendar app
(`src/App.jsx`): date normalization (`normalizeDateToYMD`), time-of-day
parsing (`parseTimeToMinutes`), identifier slugging (`slugifyId`), the
`HomeView` filter pipeline (`filteredEvents`) and date grouping/sorting
(`groupEventsByDate`).

Modelling conventions:
* JS strings are Lean `String`s viewed as `List Char`; JS `<` on strings
  (UTF-16 code-unit lexicographic order) is modelled by `ltbChars`, the
  lexicographic codepoint order, which coincides with it on the ASCII data
  the pipeline compares (`YYYY-MM-DD` keys).  `localeCompare` is likewise
  modelled by the code-unit order.
* JS `null`/`undefined` field values are `Option.none`; `String(x || "")`
  becomes `Option.getD x ""`.
* `Number.POSITIVE_INFINITY` (the "time TBA" sentinel) is `(none : Option Nat)`,
  with the comparator `timeLt` placing it above every `some`.
* A possibly-non-array JS value is `JsArr`; operations that would throw a
  `TypeError` on a non-array (`.filter`, `for..of`) return `Except.error`.
* `Array.prototype.sort` with a consistent comparator is the stable sort by
  that comparator (ES2019+); it is modelled by `List.insertionSort`, which
  is stable.
* JS whitespace handling (`trim`, `\s`) is modelled for the ASCII
  whitespace characters; `toLowerCase` by ASCII `Char.toLower`.
-/

namespace FMC

/-- ASCII whitespace, as matched by JS `trim()` and `\s`. -/
def jsWs (c : Char) : Bool :=
  c.toNat = 32 || c.toNat = 9 || c.toNat = 10 || c.toNat = 13 ||
  c.toNat = 11 || c.toNat = 12

/-- JS `String.prototype.trim` on the character list. -/
def jsTrimList (l : List Char) : List Char :=
  ((l.dropWhile jsWs).reverse.dropWhile jsWs).reverse

/-- JS `String.prototype.trim`. -/
def jsTrim (s : String) : String :=
  ⟨jsTrimList s.data⟩

/-- The regex class `\d` (ASCII digit). -/
def isDigitChar (c : Char) : Bool :=
  48 ≤ c.toNat && c.toNat ≤ 57

/-- JS `Number(...)` on a captured digit string. -/
def digitsToNat (l : List Char) : Nat :=
  l.foldl (fun n c => n * 10 + (c.toNat - 48)) 0

/-- JS `String.prototype.padStart(2, "0")` on a digit string. -/
def padStart2 (l : List Char) : List Char :=
  List.replicate (2 - l.length) '0' ++ l

/-- JS `<` on strings: lexicographic comparison of code units. -/
def ltbChars : List Char → List Char → Bool
  | _, [] => false
  | [], _ :: _ => true
  | a :: as, b :: bs =>
    if a.toNat < b.toNat then true
    else if b.toNat < a.toNat then false
    else ltbChars as bs

/-- JS `String.prototype.toLowerCase` (ASCII). -/
def jsToLower (s : String) : String :=
  ⟨s.data.map Char.toLower⟩

/-! ### `normalizeDateToYMD` (App.jsx lines 83-101) -/

/-- The regex `/^(\d{4})-(\d{2})-(\d{2})$/` as a structural test. -/
def isoShape : List Char → Bool
  | [a, b, c, d, s1, e, f, s2, g, h] =>
    isDigitChar a && isDigitChar b && isDigitChar c && isDigitChar d &&
    s1 == '-' && isDigitChar e && isDigitChar f && s2 == '-' &&
    isDigitChar g && isDigitChar h
  | _ => false

/-- The regex `/^(\d{1,2})\/(\d{1,2})\/(\d{4})$/`, returning the three
captured digit groups (month, day, year). -/
def usMatch (l : List Char) : Option (List Char × List Char × List Char) :=
  let m := l.takeWhile isDigitChar
  let r1 := l.dropWhile isDigitChar
  if m.length < 1 || 2 < m.length then none
  else
    match r1 with
    | '/' :: r2 =>
      let d := r2.takeWhile isDigitChar
      let r3 := r2.dropWhile isDigitChar
      if d.length < 1 || 2 < d.length then none
      else
        match r3 with
        | '/' :: r4 =>
          let y := r4.takeWhile isDigitChar
          let r5 := r4.dropWhile isDigitChar
          if y.length = 4 && r5.isEmpty then some (m, d, y) else none
        | _ => none
    | _ => none

/-- `normalizeDateToYMD` from App.jsx: returns the canonical `YYYY-MM-DD`
string, or `none` for the JS `null` result. -/
def normalizeDateToYMD (input : Option String) : Option String :=
  let s := jsTrim (input.getD "")
  if s.data = [] then none
  else if isoShape s.data then some s
  else
    match usMatch s.data with
    | some (mm, dd, yyyy) => some ⟨yyyy ++ '-' :: (padStart2 mm ++ '-' :: padStart2 dd)⟩
    | none => none

/-! ### `parseTimeToMinutes` (App.jsx lines 49-73) -/

inductive AmPm where
  | am : AmPm
  | pm : AmPm
deriving DecidableEq

/-- The tail `\s*(am|pm)?$` of the time regex (case-insensitive). -/
def finishAmPm (r : List Char) : Option (Option AmPm) :=
  match r.dropWhile jsWs with
  | [] => some none
  | [a, m] =>
    if a.toLower == 'a' && m.toLower == 'm' then some (some AmPm.am)
    else if a.toLower == 'p' && m.toLower == 'm' then some (some AmPm.pm)
    else none
  | _ => none

/-- The regex `/^(\d{1,2})(?::(\d{2}))?\s*(am|pm)?$/i`, returning the hour
digits, the optional minute digits, and the optional suffix. -/
def timeMatch (l : List Char) : Option (List Char × Option (List Char) × Option AmPm) :=
  let hs := l.takeWhile isDigitChar
  let r1 := l.dropWhile isDigitChar
  if hs.length < 1 || 2 < hs.length then none
  else
    match r1 with
    | ':' :: c1 :: c2 :: r2 =>
      if isDigitChar c1 && isDigitChar c2 then
        (finishAmPm r2).map fun ap => (hs, some [c1, c2], ap)
      else none
    | ':' :: _ => none
    | r => (finishAmPm r).map fun ap => (hs, none, ap)

/-- `parseTimeToMinutes` from App.jsx: minutes since midnight, with
`none` standing for `Number.POSITIVE_INFINITY` ("Time TBA" goes last). -/
def parseTimeToMinutes (timeStr : Option String) : Option Nat :=
  let s := jsTrim (timeStr.getD "")
  if s.data = [] then none
  else
    match timeMatch s.data with
    | none => none
    | some (hs, ms, ampm) =>
      let h := digitsToNat hs
      let mins := digitsToNat ((ms.getD ['0']))
      if 59 < mins then none
      else if 23 < h then none
      else
        match ampm with
        | none => some (h * 60 + mins)
        | some AmPm.am =>
          if h < 1 || 12 < h then none
          else some ((if h = 12 then 0 else h) * 60 + mins)
        | some AmPm.pm =>
          if h < 1 || 12 < h then none
          else some ((if h = 12 then 12 else h + 12) * 60 + mins)

/-! ### `slugifyId` (App.jsx lines 145-152) -/

/-- The regex class `[a-z0-9]` (chars left untouched by the slug collapse). -/
def isLowerAlnum (c : Char) : Bool :=
  (97 ≤ c.toNat && c.toNat ≤ 122) || (48 ≤ c.toNat && c.toNat ≤ 57)

/-- JS `.replace(/&/g, "and")`. -/
def expandAmp : List Char → List Char
  | [] => []
  | c :: rest => (if c == '&' then ['a', 'n', 'd'] else [c]) ++ expandAmp rest

/-- Worker for `slugCollapse`: the flag records whether the previous
character was part of a non-alphanumeric run (whose dash is already
emitted). -/
def collapseAux : Bool → List Char → List Char
  | _, [] => []
  | inRun, c :: rest =>
    if isLowerAlnum c then c :: collapseAux false rest
    else if inRun then collapseAux true rest
    else '-' :: collapseAux true rest

/-- JS `.replace(/[^a-z0-9]+/g, "-")`: each maximal run of characters
outside `[a-z0-9]` becomes a single dash. -/
def slugCollapse (l : List Char) : List Char :=
  collapseAux false l

/-- JS `.replace(/^-+|-+$/g, "")`: strip the leading and trailing dash runs. -/
def stripDashes (l : List Char) : List Char :=
  ((l.dropWhile fun c => c == '-').reverse.dropWhile fun c => c == '-').reverse

/-- `slugifyId` from App.jsx: trim, lower-case, `&`→`and`, collapse
non-alphanumeric runs to dashes, strip outer dashes. -/
def slugifyId (input : Option String) : String :=
  ⟨stripDashes (slugCollapse (expandAmp ((jsTrimList (input.getD "").data).map Char.toLower)))⟩

/-! ### Data model -/

/-- An event record (`events.json` entry).  Fields that may be JS
`null`/`undefined`/absent are `Option`s; `partnerIds`/`genres` are `none`
when the JS value is not an array (the `Array.isArray` guards). -/
structure Event where
  title : Option String
  date : Option String
  time : Option String
  venueId : Option String
  partnerIds : Option (List String)
  genres : Option (List String)
deriving DecidableEq

/-- The fixed genre enumeration `GENRES` (App.jsx lines 15-33). -/
def GENRES : List String :=
  ["Alternative", "Blues", "Bluegrass", "Classical", "Country", "Electronic",
   "Funk", "Hip Hop", "Indie", "Jazz", "Latin", "Metal", "Pop", "Punk",
   "Reggae", "Rock", "R & B"]

inductive FilterType where
  | venue : FilterType
  | partner : FilterType
deriving DecidableEq

/-- The single-dimension filter `{type, id}` held in `App` state. -/
structure SelFilter where
  type : FilterType
  id : String
deriving DecidableEq

/-- A JS value in collection position: an actual array of events, or any
non-array value (`null`, `undefined`, an object, ...), on which array
iteration and `.filter` throw a `TypeError`. -/
inductive JsArr where
  | arr : List Event → JsArr
  | notSeq : JsArr
deriving DecidableEq

/-- `Array.prototype.filter`; throws (`Except.error`) on a non-array. -/
def jsFilter (v : JsArr) (p : Event → Bool) : Except String JsArr :=
  match v with
  | JsArr.arr l => Except.ok (JsArr.arr (l.filter p))
  | JsArr.notSeq => Except.error "TypeError"

/-! ### The `HomeView` filter pipeline (App.jsx lines 422-459) -/

/-- The `filteredEvents` memo of `HomeView`.  `selectedGenres` is `some s`
when the JS value is a `Set` (modelled as a `Finset`), `none` otherwise.
The JS `return []` taken when no genre is selected is modelled by
continuing with the empty array, which the remaining search stage maps to
itself, giving the same result. -/
def filteredEvents (events : JsArr) (filter : Option SelFilter)
    (selectedGenres : Option (Finset String)) (searchQuery : String) :
    Except String JsArr := do
  let l1 ← match filter with
    | some ⟨FilterType.venue, id⟩ =>
      if id ≠ "" then jsFilter events fun e => decide (e.venueId = some id)
      else pure events
    | _ => pure events
  let l2 ← match filter with
    | some ⟨FilterType.partner, id⟩ =>
      if id ≠ "" then
        jsFilter l1 fun e =>
          (e.partnerIds.getD []).any fun pid => decide (slugifyId (some pid) = slugifyId (some id))
      else pure l1
    | _ => pure l1
  let l3 ← match selectedGenres with
    | some s =>
      if s.card = 0 then pure (JsArr.arr [])
      else if s.card ≠ GENRES.length then
        jsFilter l2 fun e => (e.genres.getD []).any fun g => decide (g ∈ s)
      else pure l2
    | none => pure l2
  let q := jsToLower (jsTrim searchQuery)
  if q ≠ "" then
    jsFilter l3 fun e => decide (q.data <:+: (jsToLower (e.title.getD "")).data)
  else pure l3

/-! ### `groupEventsByDate` (App.jsx lines 103-134) -/

/-- The two guard lines of the grouping loop: the normalized date key of an
event, or `none` if the date is absent/unparseable (`if (!dateKey) continue`)
or strictly before today (`if (dateKey < today) continue`). -/
def keptKey (today : String) (e : Event) : Option String :=
  match normalizeDateToYMD e.date with
  | none => none
  | some dateKey => if ltbChars dateKey.data today.data then none else some dateKey

/-- `groups.get(k).push(e)` preceded by `if (!groups.has(k)) groups.set(k, [])`:
append `e` to the bucket of `k` in the insertion-ordered map, creating the
bucket at the end if absent. -/
def insertEvent : List (String × List Event) → String → Event → List (String × List Event)
  | [], k, e => [(k, [e])]
  | (k₁, es) :: rest, k, e =>
    if k₁ = k then (k₁, es ++ [e]) :: rest
    else (k₁, es) :: insertEvent rest k e

/-- The `for (const e of eventList)` bucketing loop, with accumulator. -/
def buildGroups (today : String) : List Event → List (String × List Event) → List (String × List Event)
  | [], acc => acc
  | e :: rest, acc =>
    match keptKey today e with
    | none => buildGroups today rest acc
    | some k => buildGroups today rest (insertEvent acc k e)

/-- `groups.get(date)` on the insertion-ordered map. -/
def lookupB (g : List (String × List Event)) (d : String) : List Event :=
  match g.find? fun p => decide (p.1 = d) with
  | some p => p.2
  | none => []

/-- `e.time` parsed; `none` is the TBA (`+∞`) sentinel. -/
def timeVal (e : Event) : Option Nat :=
  parseTimeToMinutes e.time

/-- `String(e.title || "")`. -/
def jsTitle (e : Event) : String :=
  e.title.getD ""

/-- Strict comparison of parsed time values, `none` acting as `+∞`
(the sign of the JS comparator subtraction `ta - tb`). -/
def timeLt : Option Nat → Option Nat → Bool
  | some a, some b => a < b
  | some _, none => true
  | none, _ => false

/-- The within-group comparator of `groupEventsByDate` as a Boolean
"is not greater" test: `a` may come before `b` when `a`'s time is strictly
earlier, or the times are equal and `a`'s title does not compare after
`b`'s (`localeCompare` modelled as code-unit order). -/
def eventLeB (a b : Event) : Bool :=
  timeLt (timeVal a) (timeVal b) ||
  (timeVal a == timeVal b && !ltbChars (jsTitle b).data (jsTitle a).data)

/-- `eventLeB` as a relation, for the stable sort. -/
def eventLe (a b : Event) : Prop :=
  eventLeB a b = true

instance : DecidableRel eventLe := fun _ _ => instDecidableEqBool _ _

/-- The comparator of the date sort
(`(a, b) => a < b ? -1 : a > b ? 1 : 0`) as an "is not greater" relation. -/
def dateLe (a b : String) : Prop :=
  ltbChars b.data a.data = false

instance : DecidableRel dateLe := fun _ _ => instDecidableEqBool _ _

/-- One output group `{date, events}`. -/
structure EventGroup where
  date : String
  events : List Event
deriving DecidableEq

/-- `groupEventsByDate` from App.jsx, with "today" made an explicit
parameter (the source reads the wall clock via `getTodayYMD`).  Both
`.sort` calls are the stable sorts by their comparators. -/
def groupEventsByDate (today : String) (eventList : List Event) : List EventGroup :=
  let groups := buildGroups today eventList []
  let dates := List.insertionSort dateLe (groups.map Prod.fst)
  dates.map fun d => ⟨d, List.insertionSort eventLe (lookupB groups d)⟩

/-- The full core pipeline: filtering (`HomeView.filteredEvents`) followed
by grouping (`groupEventsByDate`); `for..of` over a non-array throws. -/
def pipeline (today : String) (events : JsArr) (filter : Option SelFilter)
    (selectedGenres : Option (Finset String)) (searchQuery : String) :
    Except String (List EventGroup) := do
  let r ← filteredEvents events filter selectedGenres searchQuery
  match r with
  | JsArr.arr l => pure (groupEventsByDate today l)
  | JsArr.notSeq => Except.error "TypeError"

/-! ## Character and string lemmas -/

theorem char_eq_of_toNat_eq {a b : Char} (h : a.toNat = b.toNat) : a = b :=
  Char.ext (UInt32.toNat.inj h)

theorem string_eq_of_data_eq {a b : String} (h : a.data = b.data) : a = b := by
  cases a; cases b; exact congrArg String.mk h

theorem ltbChars_irrefl : ∀ l : List Char, ltbChars l l = false
  | [] => rfl
  | a :: as => by simp [ltbChars, ltbChars_irrefl as]

theorem eq_of_ltbChars_false : ∀ {a b : List Char}, ltbChars a b = false →
    ltbChars b a = false → a = b
  | [], [], _, _ => rfl
  | [], _ :: _, h₁, _ => by simp [ltbChars] at h₁
  | _ :: _, [], _, h₂ => by simp [ltbChars] at h₂
  | a :: as, b :: bs, h₁, h₂ => by
    simp only [ltbChars] at h₁ h₂
    by_cases hab : a.toNat < b.toNat
    · simp [hab] at h₁
    · by_cases hba : b.toNat < a.toNat
      · simp [hba] at h₂
      · simp only [if_neg hab, if_neg hba] at h₁ h₂
        have he : a = b := char_eq_of_toNat_eq (Nat.le_antisymm (Nat.not_lt.mp hba) (Nat.not_lt.mp hab))
        rw [he, eq_of_ltbChars_false h₁ h₂]

theorem ltbChars_trans : ∀ {a b c : List Char}, ltbChars a b = true →
    ltbChars b c = true → ltbChars a c = true
  | _, [], _, h₁, _ => by simp [ltbChars] at h₁
  | _, _, [], _, h₂ => by simp [ltbChars] at h₂
  | [], _ :: _, _ :: _, _, _ => by simp [ltbChars]
  | a :: as, b :: bs, c :: cs, h₁, h₂ => by
    simp only [ltbChars] at h₁ h₂ ⊢
    by_cases hab : a.toNat < b.toNat
    · by_cases hbc : b.toNat < c.toNat
      · simp [Nat.lt_trans hab hbc]
      · by_cases hcb : c.toNat < b.toNat
        · simp [hbc, hcb] at h₂
        · have : b.toNat = c.toNat := Nat.le_antisymm (Nat.not_lt.mp hcb) (Nat.not_lt.mp hbc)
          simp [this ▸ hab]
    · by_cases hba : b.toNat < a.toNat
      · simp [hab, hba] at h₁
      · have hab' : a.toNat = b.toNat := Nat.le_antisymm (Nat.not_lt.mp hba) (Nat.not_lt.mp hab)
        simp only [if_neg hab, if_neg hba] at h₁
        by_cases hbc : b.toNat < c.toNat
        · simp [hab' ▸ hbc]
        · by_cases hcb : c.toNat < b.toNat
          · simp [hbc, hcb] at h₂
          · simp only [if_neg hbc, if_neg hcb] at h₂
            have hac : ¬ a.toNat < c.toNat := by omega
            have hca : ¬ c.toNat < a.toNat := by omega
            simp [if_neg hac, if_neg hca, ltbChars_trans h₁ h₂]

theorem ltbChars_asymm {a b : List Char} (h : ltbChars a b = true) :
    ltbChars b a = false := by
  by_contra hc
  have hba : ltbChars b a = true := by
    cases hcase : ltbChars b a
    · exact absurd hcase hc
    · rfl
  have := ltbChars_trans h hba
  rw [ltbChars_irrefl] at this
  exact Bool.false_ne_true this

theorem ltbChars_false_trans {a b c : List Char} (h₁ : ltbChars b a = false)
    (h₂ : ltbChars c b = false) : ltbChars c a = false := by
  cases hca : ltbChars c a
  · rfl
  · exfalso
    cases hbc : ltbChars b c
    · have hceq : c = b := eq_of_ltbChars_false h₂ hbc
      rw [hceq] at hca
      rw [h₁] at hca
      exact Bool.false_ne_true hca
    · have := ltbChars_trans hbc hca
      rw [h₁] at this
      exact Bool.false_ne_true this

theorem ltbChars_true_of_false_of_ne {a b : List Char} (h : ltbChars b a = false)
    (hne : a ≠ b) : ltbChars a b = true := by
  cases hab : ltbChars a b
  · exact absurd (eq_of_ltbChars_false hab h) hne
  · rfl

/-! ## Trim lemmas -/

theorem dropWhile_eq_self_of_head {p : Char → Bool} {l : List Char}
    (h : ∀ c, l.head? = some c → p c = false) : l.dropWhile p = l := by
  cases l with
  | nil => rfl
  | cons a t => simp [List.dropWhile_cons, h a rfl]

theorem jsTrimList_eq_self_of_ends {l : List Char}
    (h₁ : ∀ c, l.head? = some c → jsWs c = false)
    (h₂ : ∀ c, l.getLast? = some c → jsWs c = false) : jsTrimList l = l := by
  unfold jsTrimList
  rw [dropWhile_eq_self_of_head h₁]
  rw [dropWhile_eq_self_of_head fun c hc => h₂ c (by rwa [List.head?_reverse] at hc)]
  exact List.reverse_reverse l

theorem mem_of_head?_eq_some {l : List Char} {c : Char} (h : l.head? = some c) :
    c ∈ l := by
  cases l with
  | nil => simp at h
  | cons a t =>
    simp only [List.head?_cons, Option.some.injEq] at h
    exact h ▸ List.mem_cons_self a t

theorem mem_of_getLast?_eq_some {l : List Char} {c : Char} (h : l.getLast? = some c) :
    c ∈ l := by
  rw [← List.head?_reverse] at h
  exact List.mem_reverse.mp (mem_of_head?_eq_some h)

theorem jsTrimList_eq_self_of_mem {l : List Char} (h : ∀ c ∈ l, jsWs c = false) :
    jsTrimList l = l :=
  jsTrimList_eq_self_of_ends (fun c hc => h c (mem_of_head?_eq_some hc))
    (fun c hc => h c (mem_of_getLast?_eq_some hc))

theorem jsWs_eq_false_of_digit {c : Char} (h : isDigitChar c = true) : jsWs c = false := by
  simp only [isDigitChar, Bool.and_eq_true, decide_eq_true_eq] at h
  simp only [jsWs, Bool.or_eq_false_iff, decide_eq_false_iff_not]
  omega

/-! ## digitsToNat lemmas -/

theorem digitsToNat_cons_zero (l : List Char) :
    digitsToNat ('0' :: l) = digitsToNat l := by
  have h0 : 0 * 10 + ('0'.toNat - 48) = 0 := by decide
  show List.foldl _ (0 * 10 + ('0'.toNat - 48)) l = List.foldl _ 0 l
  rw [h0]

theorem digitsToNat_replicate_zero : ∀ (k : Nat) (l : List Char),
    digitsToNat (List.replicate k '0' ++ l) = digitsToNat l
  | 0, l => by simp
  | k + 1, l => by
    rw [List.replicate_succ, List.cons_append, digitsToNat_cons_zero]
    exact digitsToNat_replicate_zero k l

theorem digitsToNat_padStart2 (l : List Char) :
    digitsToNat (padStart2 l) = digitsToNat l :=
  digitsToNat_replicate_zero _ l

/-! ## normalizeDateToYMD lemmas -/

theorem isoShape_elim {l : List Char} (h : isoShape l = true) :
    ∃ a b c d e f g k, isDigitChar a = true ∧ isDigitChar b = true ∧ isDigitChar c = true ∧
      isDigitChar d = true ∧ isDigitChar e = true ∧ isDigitChar f = true ∧
      isDigitChar g = true ∧ isDigitChar k = true ∧ l = [a, b, c, d, '-', e, f, '-', g, k] := by
  unfold isoShape at h
  split at h
  next a b c d s1 e f s2 g k =>
    simp only [Bool.and_eq_true, beq_iff_eq] at h
    obtain ⟨⟨⟨⟨⟨⟨⟨⟨⟨ha, hb⟩, hc⟩, hd⟩, hs1⟩, he⟩, hf⟩, hs2⟩, hg⟩, hk⟩ := h
    exact ⟨a, b, c, d, e, f, g, k, ha, hb, hc, hd, he, hf, hg, hk, by rw [hs1, hs2]⟩
  next => exact absurd h Bool.false_ne_true

theorem isoShape_mem_nonWs {l : List Char} (h : isoShape l = true) :
    ∀ c ∈ l, jsWs c = false := by
  obtain ⟨a, b, c, d, e, f, g, k, ha, hb, hc, hd, he, hf, hg, hk, hl⟩ := isoShape_elim h
  subst hl
  intro x hx
  simp only [List.mem_cons, List.not_mem_nil, or_false] at hx
  rcases hx with rfl | rfl | rfl | rfl | rfl | rfl | rfl | rfl | rfl | rfl
  exacts [jsWs_eq_false_of_digit ha, jsWs_eq_false_of_digit hb, jsWs_eq_false_of_digit hc,
    jsWs_eq_false_of_digit hd, by decide, jsWs_eq_false_of_digit he,
    jsWs_eq_false_of_digit hf, by decide, jsWs_eq_false_of_digit hg,
    jsWs_eq_false_of_digit hk]

theorem jsTrim_eq_self_of_iso {s : String} (h : isoShape s.data = true) :
    jsTrim s = s := by
  unfold jsTrim
  rw [jsTrimList_eq_self_of_mem (isoShape_mem_nonWs h)]

/-- An `YYYY-MM-DD`-shaped string cannot also match the `M/D/YYYY` regex:
its leading digit run has length 4. -/
theorem usMatch_eq_none_of_iso {l : List Char} (h : isoShape l = true) :
    usMatch l = none := by
  obtain ⟨a, b, c, d, e, f, g, k, ha, hb, hc, hd, he, hf, hg, hk, hl⟩ := isoShape_elim h
  subst hl
  unfold usMatch
  simp [List.takeWhile_cons, ha, hb, hc, hd]

theorem normalizeDateToYMD_iso {s : String} (h : isoShape s.data = true) :
    normalizeDateToYMD (some s) = some s := by
  have hne : s.data ≠ [] := by
    intro he
    rw [he] at h
    exact absurd h (by decide)
  unfold normalizeDateToYMD
  simp only [Option.getD_some]
  rw [jsTrim_eq_self_of_iso h, if_neg hne, if_pos h]

theorem normalizeDateToYMD_us {s : String} {m d y : List Char}
    (h : usMatch (jsTrim s).data = some (m, d, y)) :
    normalizeDateToYMD (some s) = some ⟨y ++ '-' :: (padStart2 m ++ '-' :: padStart2 d)⟩ := by
  have hne : (jsTrim s).data ≠ [] := by
    intro he
    rw [he] at h
    simp [usMatch] at h
  have hiso : isoShape (jsTrim s).data = false := by
    cases hi : isoShape (jsTrim s).data
    · rfl
    · rw [usMatch_eq_none_of_iso hi] at h
      exact absurd h (by simp)
  unfold normalizeDateToYMD
  simp only [Option.getD_some]
  rw [if_neg hne, if_neg (by simp [hiso]), h]

theorem normalizeDateToYMD_eq_none {s : String} (h₁ : isoShape (jsTrim s).data = false)
    (h₂ : usMatch (jsTrim s).data = none) : normalizeDateToYMD (some s) = none := by
  unfold normalizeDateToYMD
  simp only [Option.getD_some]
  by_cases he : (jsTrim s).data = []
  · rw [if_pos he]
  · rw [if_neg he, if_neg (by simp [h₁]), h₂]

/-! ## Claim C7 -/

/-- C7: every string matching the canonical `YYYY-MM-DD` structural shape is
returned unchanged by `normalizeDateToYMD` (idempotence on canonical dates),
with no calendar validation beyond the structural match: the calendar-invalid
`"2024-13-40"` passes through unchanged. -/
theorem claim_C7_normalizeDate_iso_identity :
    (∀ s : String, isoShape s.data = true → normalizeDateToYMD (some s) = some s) ∧
    normalizeDateToYMD (some "2024-13-40") = some "2024-13-40" :=
  ⟨fun _ h => normalizeDateToYMD_iso h, by decide⟩

theorem claim_C7_witness :
    isoShape ("2025-11-08" : String).data = true ∧
    normalizeDateToYMD (some "2025-11-08") = some "2025-11-08" :=
  ⟨by decide, claim_C7_normalizeDate_iso_identity.1 "2025-11-08" (by decide)⟩

/-! ## Claim C8 -/

/-- C8: every (trimmed) `M/D/YYYY` or `MM/DD/YYYY` string is rewritten to the
canonical `YYYY-MM-DD` string with the same year, month and day values,
one-digit components zero-padded; every input matching neither accepted
shape — including the empty string and the absent (`null`) input — yields
the distinguished absent value `none` rather than an error. -/
theorem claim_C8_normalizeDate_us_and_reject :
    (∀ (s : String) (m d y : List Char), usMatch (jsTrim s).data = some (m, d, y) →
      normalizeDateToYMD (some s) = some ⟨y ++ '-' :: (padStart2 m ++ '-' :: padStart2 d)⟩ ∧
      digitsToNat (padStart2 m) = digitsToNat m ∧
      digitsToNat (padStart2 d) = digitsToNat d) ∧
    (∀ s : String, isoShape (jsTrim s).data = false → usMatch (jsTrim s).data = none →
      normalizeDateToYMD (some s) = none) ∧
    normalizeDateToYMD (some "") = none ∧ normalizeDateToYMD none = none :=
  ⟨fun _ m d _ h =>
      ⟨normalizeDateToYMD_us h, digitsToNat_padStart2 m, digitsToNat_padStart2 d⟩,
    fun _ h₁ h₂ => normalizeDateToYMD_eq_none h₁ h₂, by decide, by decide⟩

theorem claim_C8_witness :
    (usMatch (jsTrim "1/2/2025").data = some (['1'], ['2'], ['2', '0', '2', '5']) ∧
      normalizeDateToYMD (some "1/2/2025") =
        some ⟨['2', '0', '2', '5'] ++ '-' :: (padStart2 ['1'] ++ '-' :: padStart2 ['2'])⟩ ∧
      digitsToNat (padStart2 ['1']) = digitsToNat ['1'] ∧
      digitsToNat (padStart2 ['2']) = digitsToNat ['2']) ∧
    (isoShape (jsTrim "hello").data = false ∧ usMatch (jsTrim "hello").data = none ∧
      normalizeDateToYMD (some "hello") = none) :=
  ⟨⟨by decide, claim_C8_normalizeDate_us_and_reject.1 "1/2/2025" ['1'] ['2']
      ['2', '0', '2', '5'] (by decide)⟩,
    ⟨by decide, by decide, claim_C8_normalizeDate_us_and_reject.2.1 "hello"
      (by decide) (by decide)⟩⟩

/-! ## Claim C6 -/

/-- C6 (amended): the hour component of the time grammar is mandatory, not
optional: any input whose trimmed form starts with a non-digit character —
in particular `":30"`, which omits the hour — fails the regex and maps to
the unknown/TBA sentinel. -/
theorem claim_C6_hour_mandatory :
    ∀ (s : String) (c : Char) (r : List Char), (jsTrim s).data = c :: r →
      isDigitChar c = false → parseTimeToMinutes (some s) = none := by
  intro s c r hdata hc
  unfold parseTimeToMinutes
  simp only [Option.getD_some]
  rw [hdata]
  rw [if_neg (by simp)]
  simp [timeMatch, List.takeWhile_cons, hc]

/-- C6 counterexample: the claim asserts `":30"` (hour omitted, minutes
supplied) is recognized and parsed to a time value rather than mapped to the
unknown sentinel; in fact the code maps it to the sentinel. -/
theorem claim_C6_counterexample : parseTimeToMinutes (some ":30") = none := by
  decide

theorem claim_C6_witness :
    ((jsTrim ":30").data = ':' :: ['3', '0'] ∧ isDigitChar ':' = false) ∧
    parseTimeToMinutes (some ":30") = none :=
  ⟨⟨by decide, by decide⟩,
    claim_C6_hour_mandatory ":30" ':' ['3', '0'] (by decide) (by decide)⟩

/-! ## Rendering clock strings (quantified inputs for the parser claims) -/

/-- The decimal digit character of `d ≤ 9`. -/
def digitChar : Nat → Char
  | 0 => '0'
  | 1 => '1'
  | 2 => '2'
  | 3 => '3'
  | 4 => '4'
  | 5 => '5'
  | 6 => '6'
  | 7 => '7'
  | 8 => '8'
  | _ => '9'

/-- The hour written without padding (one digit below 10, two above). -/
def renderHour (h : Nat) : List Char :=
  if h < 10 then [digitChar h] else [digitChar (h / 10), digitChar (h % 10)]

/-- A two-digit minute field. -/
def render2 (m : Nat) : List Char :=
  [digitChar (m / 10), digitChar (m % 10)]

/-- A 24-hour clock string `H:MM`. -/
def render24 (h m : Nat) : String :=
  ⟨renderHour h ++ ':' :: render2 m⟩

/-- A 12-hour clock string `H:MM AM` / `H:MM PM`. -/
def render12 (h m : Nat) : AmPm → String
  | AmPm.am => ⟨renderHour h ++ ':' :: render2 m ++ [' ', 'A', 'M']⟩
  | AmPm.pm => ⟨renderHour h ++ ':' :: render2 m ++ [' ', 'P', 'M']⟩

theorem digitChar_isDigit {d : Nat} (hd : d ≤ 9) : isDigitChar (digitChar d) = true := by
  interval_cases d <;> decide

theorem digitChar_toNat {d : Nat} (hd : d ≤ 9) : (digitChar d).toNat = 48 + d := by
  interval_cases d <;> decide

theorem digitsToNat_one (c : Char) : digitsToNat [c] = c.toNat - 48 := by
  show 0 * 10 + (c.toNat - 48) = _
  omega

theorem digitsToNat_two (c₁ c₂ : Char) :
    digitsToNat [c₁, c₂] = (c₁.toNat - 48) * 10 + (c₂.toNat - 48) := by
  show (0 * 10 + (c₁.toNat - 48)) * 10 + (c₂.toNat - 48) = _
  omega

theorem mem_renderHour_digit {h : Nat} (hh : h ≤ 99) :
    ∀ x ∈ renderHour h, isDigitChar x = true := by
  intro x hx
  unfold renderHour at hx
  by_cases h10 : h < 10
  · rw [if_pos h10] at hx
    simp only [List.mem_singleton] at hx
    exact hx ▸ digitChar_isDigit (by omega)
  · rw [if_neg h10] at hx
    simp only [List.mem_cons, List.not_mem_nil, or_false] at hx
    rcases hx with rfl | rfl
    · exact digitChar_isDigit (by omega)
    · exact digitChar_isDigit (by omega)

theorem mem_render2_digit {m : Nat} (hm : m ≤ 99) :
    ∀ x ∈ render2 m, isDigitChar x = true := by
  intro x hx
  unfold render2 at hx
  simp only [List.mem_cons, List.not_mem_nil, or_false] at hx
  rcases hx with rfl | rfl
  · exact digitChar_isDigit (by omega)
  · exact digitChar_isDigit (by omega)

theorem digitsToNat_renderHour {h : Nat} (hh : h ≤ 99) :
    digitsToNat (renderHour h) = h := by
  unfold renderHour
  by_cases h10 : h < 10
  · rw [if_pos h10, digitsToNat_one, digitChar_toNat (by omega)]
    omega
  · rw [if_neg h10, digitsToNat_two, digitChar_toNat (by omega), digitChar_toNat (by omega)]
    omega

theorem digitsToNat_render2 {m : Nat} (hm : m ≤ 99) :
    digitsToNat (render2 m) = m := by
  unfold render2
  rw [digitsToNat_two, digitChar_toNat (by omega), digitChar_toNat (by omega)]
  omega

theorem renderHour_length {h : Nat} :
    (renderHour h).length = 1 ∨ (renderHour h).length = 2 := by
  unfold renderHour
  by_cases h10 : h < 10
  · rw [if_pos h10]; left; rfl
  · rw [if_neg h10]; right; rfl

/-- Splitting `takeWhile`/`dropWhile` at the first failing character. -/
theorem takeWhile_append_stop {p : Char → Bool} (c : Char) (hc : p c = false) :
    ∀ (l₁ l₂ : List Char), (∀ x ∈ l₁, p x = true) →
      (l₁ ++ c :: l₂).takeWhile p = l₁ ∧ (l₁ ++ c :: l₂).dropWhile p = c :: l₂
  | [], l₂, _ => by
    simp [List.takeWhile_cons, List.dropWhile_cons, hc]
  | a :: t, l₂, h => by
    have ha : p a = true := h a (List.mem_cons_self a t)
    have ih := takeWhile_append_stop c hc t l₂ fun x hx => h x (List.mem_cons_of_mem a hx)
    simp only [List.cons_append, List.takeWhile_cons, List.dropWhile_cons, ha, if_true]
    exact ⟨by rw [ih.1], ih.2⟩

/-- The time regex on a string of the shape `digits ":" d d tail`. -/
theorem timeMatch_split {hd tail : List Char} {c₁ c₂ : Char} {ap : Option AmPm}
    (hhd : ∀ x ∈ hd, isDigitChar x = true)
    (hlen1 : 1 ≤ hd.length) (hlen2 : hd.length ≤ 2)
    (h₁ : isDigitChar c₁ = true) (h₂ : isDigitChar c₂ = true)
    (hfin : finishAmPm tail = some ap) :
    timeMatch (hd ++ ':' :: c₁ :: c₂ :: tail) = some (hd, some [c₁, c₂], ap) := by
  have hsplit := takeWhile_append_stop ':' (by decide) hd (c₁ :: c₂ :: tail) hhd
  unfold timeMatch
  rw [hsplit.1, hsplit.2]
  rw [if_neg (by simp only [Bool.or_eq_true, decide_eq_true_eq]; omega)]
  show (if (isDigitChar c₁ && isDigitChar c₂) = true then
      Option.map (fun ap => (hd, some [c₁, c₂], ap)) (finishAmPm tail)
    else none) = some (hd, some [c₁, c₂], ap)
  rw [if_pos (by simp [h₁, h₂]), hfin]
  rfl

/-- `jsTrim` fixes a rendered clock string (digit at both ends, or the
letter `M` at the right end). -/
theorem jsTrim_render_fix {l : List Char} (hhead : ∀ c, l.head? = some c → jsWs c = false)
    (hlast : ∀ c, l.getLast? = some c → jsWs c = false) :
    jsTrim ⟨l⟩ = ⟨l⟩ := by
  unfold jsTrim
  rw [show (String.mk l).data = l from rfl, jsTrimList_eq_self_of_ends hhead hlast]

theorem head?_append_left {l₁ l₂ : List Char} {c : Char} (h : (l₁ ++ l₂).head? = some c)
    (hne : l₁ ≠ []) : l₁.head? = some c := by
  cases l₁ with
  | nil => exact absurd rfl hne
  | cons a t => simpa using h

theorem renderHour_ne_nil (h : Nat) : renderHour h ≠ [] := by
  unfold renderHour
  by_cases h10 : h < 10 <;> simp [h10]

/-- `jsTrim` fixes any string of the shape `renderHour h ++ rest ++ [last]`
with a non-whitespace final character. -/
theorem jsTrim_hour_tail_fix {h : Nat} (hh99 : h ≤ 99) (rest : List Char) {last : Char}
    (hlast : jsWs last = false) :
    jsTrim ⟨renderHour h ++ rest ++ [last]⟩ = ⟨renderHour h ++ rest ++ [last]⟩ := by
  refine jsTrim_render_fix (fun c hc => ?_) (fun c hc => ?_)
  · have hc' := head?_append_left (head?_append_left hc (by
      intro he
      exact renderHour_ne_nil h (List.append_eq_nil.mp he).1)) (renderHour_ne_nil h)
    exact jsWs_eq_false_of_digit (mem_renderHour_digit hh99 c (mem_of_head?_eq_some hc'))
  · rw [List.getLast?_concat, Option.some.injEq] at hc
    exact hc ▸ hlast

theorem parseTime_render24 {h m : Nat} (hh : h ≤ 23) (hm : m ≤ 59) :
    parseTimeToMinutes (some (render24 h m)) = some (h * 60 + m) := by
  have hh99 : h ≤ 99 := by omega
  have hm99 : m ≤ 99 := by omega
  have hlist : renderHour h ++ [':', digitChar (m / 10)] ++ [digitChar (m % 10)] =
      renderHour h ++ ':' :: render2 m := by
    rw [List.append_assoc]
    rfl
  have htrim : jsTrim (render24 h m) = render24 h m := by
    have := jsTrim_hour_tail_fix hh99 [':', digitChar (m / 10)]
      (jsWs_eq_false_of_digit (digitChar_isDigit (show m % 10 ≤ 9 by omega)))
    rw [hlist] at this
    exact this
  unfold parseTimeToMinutes
  simp only [Option.getD_some]
  rw [htrim]
  rw [show (render24 h m).data = renderHour h ++ ':' :: render2 m from rfl]
  rw [if_neg (by simp [renderHour_ne_nil h])]
  rw [show (':' :: render2 m) = ':' :: digitChar (m / 10) :: digitChar (m % 10) :: [] from rfl]
  rw [timeMatch_split (mem_renderHour_digit hh99)
    (by rcases @renderHour_length h with hl | hl <;> omega)
    (by rcases @renderHour_length h with hl | hl <;> omega)
    (digitChar_isDigit (by omega)) (digitChar_isDigit (by omega))
    (show finishAmPm [] = some none from rfl)]
  show (let hr := digitsToNat (renderHour h);
    let mins := digitsToNat ((some [digitChar (m / 10), digitChar (m % 10)]).getD ['0']);
    if 59 < mins then none
    else if 23 < hr then none
    else some (hr * 60 + mins)) = some (h * 60 + m)
  simp only [Option.getD_some]
  rw [show digitsToNat [digitChar (m / 10), digitChar (m % 10)] = m from digitsToNat_render2 hm99]
  rw [digitsToNat_renderHour hh99]
  rw [if_neg (by omega), if_neg (by omega)]

theorem finishAmPm_tail_am : finishAmPm [' ', 'A', 'M'] = some (some AmPm.am) := by decide

theorem finishAmPm_tail_pm : finishAmPm [' ', 'P', 'M'] = some (some AmPm.pm) := by decide

/-- The suffix letter of a rendered 12-hour string. -/
def apChar : AmPm → Char
  | AmPm.am => 'A'
  | AmPm.pm => 'P'

theorem render12_data (h m : Nat) (ap : AmPm) :
    (render12 h m ap).data =
      renderHour h ++ ':' :: render2 m ++ [' ', apChar ap, 'M'] := by
  cases ap <;> rfl

theorem parseTime_render12 {h m : Nat} (ap : AmPm) (hh : h ≤ 23) (hm : m ≤ 59) :
    parseTimeToMinutes (some (render12 h m ap)) =
      if h < 1 ∨ 12 < h then none
      else some ((match ap with
        | AmPm.am => if h = 12 then 0 else h
        | AmPm.pm => if h = 12 then 12 else h + 12) * 60 + m) := by
  have hh99 : h ≤ 99 := by omega
  have hm99 : m ≤ 99 := by omega
  have hlist : renderHour h ++ [':', digitChar (m / 10), digitChar (m % 10), ' ', apChar ap] ++ ['M'] =
      renderHour h ++ ':' :: render2 m ++ [' ', apChar ap, 'M'] := by
    simp [render2]
  have htrim : jsTrim (render12 h m ap) = render12 h m ap := by
    have hfix := jsTrim_hour_tail_fix hh99
      [':', digitChar (m / 10), digitChar (m % 10), ' ', apChar ap]
      (show jsWs 'M' = false by decide)
    rw [hlist] at hfix
    have hs : render12 h m ap = ⟨renderHour h ++ ':' :: render2 m ++ [' ', apChar ap, 'M']⟩ := by
      cases ap <;> rfl
    rw [hs]
    exact hfix
  unfold parseTimeToMinutes
  simp only [Option.getD_some]
  rw [htrim]
  rw [show (render12 h m ap).data =
    renderHour h ++ ':' :: digitChar (m / 10) :: digitChar (m % 10) :: [' ', apChar ap, 'M'] from by
      rw [render12_data]
      simp [render2]]
  rw [if_neg (by simp [renderHour_ne_nil h])]
  have hfin : finishAmPm [' ', apChar ap, 'M'] = some (some ap) := by
    cases ap
    · exact finishAmPm_tail_am
    · exact finishAmPm_tail_pm
  rw [timeMatch_split (mem_renderHour_digit hh99)
    (by rcases @renderHour_length h with hl | hl <;> omega)
    (by rcases @renderHour_length h with hl | hl <;> omega)
    (digitChar_isDigit (by omega)) (digitChar_isDigit (by omega)) hfin]
  show (let hr := digitsToNat (renderHour h);
    let mins := digitsToNat ((some [digitChar (m / 10), digitChar (m % 10)]).getD ['0']);
    if 59 < mins then none
    else if 23 < hr then none
    else match some ap with
      | none => some (hr * 60 + mins)
      | some AmPm.am =>
        if hr < 1 || 12 < hr then none
        else some ((if hr = 12 then 0 else hr) * 60 + mins)
      | some AmPm.pm =>
        if hr < 1 || 12 < hr then none
        else some ((if hr = 12 then 12 else hr + 12) * 60 + mins)) = _
  simp only [Option.getD_some]
  rw [show digitsToNat [digitChar (m / 10), digitChar (m % 10)] = m from digitsToNat_render2 hm99]
  rw [digitsToNat_renderHour hh99]
  rw [if_neg (by omega), if_neg (by omega)]
  by_cases hr : h < 1 ∨ 12 < h
  · have hb : (decide (h < 1) || decide (12 < h)) = true := by
      simp only [Bool.or_eq_true, decide_eq_true_eq]
      exact hr
    cases ap <;> simp [hb, hr]
  · have hb : (decide (h < 1) || decide (12 < h)) = false := by
      simp only [Bool.or_eq_false_iff, decide_eq_false_iff_not]
      omega
    cases ap <;> simp [hb, hr]

/-! ## Comparator lemmas and order instances -/

theorem timeLt_trans {x y z : Option Nat} (h₁ : timeLt x y = true) (h₂ : timeLt y z = true) :
    timeLt x z = true := by
  cases x <;> cases y <;> cases z <;> simp [timeLt] at * <;> omega

theorem timeLt_eq_of_false {x y : Option Nat} (h₁ : timeLt x y = false)
    (h₂ : timeLt y x = false) : x = y := by
  cases x <;> cases y <;> simp [timeLt] at * <;> omega

theorem eventLe_iff {a b : Event} : eventLe a b ↔
    (timeLt (timeVal a) (timeVal b) = true ∨
      (timeVal a = timeVal b ∧ ltbChars (jsTitle b).data (jsTitle a).data = false)) := by
  unfold eventLe eventLeB
  cases hlt : timeLt (timeVal a) (timeVal b) <;>
    cases heq : timeVal a == timeVal b <;>
      cases hti : ltbChars (jsTitle b).data (jsTitle a).data <;>
        simp_all [beq_iff_eq]

instance : IsTrans Event eventLe := by
  constructor
  intro a b c h₁ h₂
  rw [eventLe_iff] at h₁ h₂ ⊢
  rcases h₁ with h₁ | ⟨h₁e, h₁t⟩
  · rcases h₂ with h₂ | ⟨h₂e, _⟩
    · exact Or.inl (timeLt_trans h₁ h₂)
    · exact Or.inl (h₂e ▸ h₁)
  · rcases h₂ with h₂ | ⟨h₂e, h₂t⟩
    · exact Or.inl (h₁e ▸ h₂)
    · exact Or.inr ⟨h₁e.trans h₂e, ltbChars_false_trans h₁t h₂t⟩

instance : IsTotal Event eventLe := by
  constructor
  intro a b
  cases hab : timeLt (timeVal a) (timeVal b)
  · cases hba : timeLt (timeVal b) (timeVal a)
    · have heq := timeLt_eq_of_false hab hba
      cases hti : ltbChars (jsTitle b).data (jsTitle a).data
      · exact Or.inl (eventLe_iff.mpr (Or.inr ⟨heq, hti⟩))
      · exact Or.inr (eventLe_iff.mpr (Or.inr ⟨heq.symm, ltbChars_asymm hti⟩))
    · exact Or.inr (eventLe_iff.mpr (Or.inl hba))
  · exact Or.inl (eventLe_iff.mpr (Or.inl hab))

instance : IsTrans String dateLe :=
  ⟨fun _ _ _ h₁ h₂ => ltbChars_false_trans h₁ h₂⟩

instance : IsTotal String dateLe := by
  constructor
  intro a b
  cases h : ltbChars b.data a.data
  · exact Or.inl h
  · exact Or.inr (ltbChars_asymm h)

theorem eventLe_none_mono {a b : Event} (h : eventLe a b) (ha : timeVal a = none) :
    timeVal b = none := by
  rw [eventLe_iff] at h
  rcases h with h | ⟨h, _⟩
  · rw [ha] at h
    simp [timeLt] at h
  · rw [← h, ha]

/-! ## Map-accumulation lemmas for the grouping loop -/

theorem lookupB_nil (d : String) : lookupB [] d = [] := rfl

theorem lookupB_cons_self (k : String) (es : List Event)
    (rest : List (String × List Event)) : lookupB ((k, es) :: rest) k = es := by
  unfold lookupB
  rw [List.find?_cons_of_pos _ (by simp)]

theorem lookupB_cons_ne {d k : String} (h : d ≠ k) (es : List Event)
    (rest : List (String × List Event)) : lookupB ((k, es) :: rest) d = lookupB rest d := by
  unfold lookupB
  rw [List.find?_cons_of_neg _ (by
    simp only [decide_eq_true_eq]
    exact fun he => h he.symm)]

theorem lookupB_insertEvent (g : List (String × List Event)) (k : String) (e : Event)
    (d : String) :
    lookupB (insertEvent g k e) d = if d = k then lookupB g d ++ [e] else lookupB g d := by
  induction g with
  | nil =>
    by_cases hdk : d = k
    · subst hdk
      rw [show insertEvent [] d e = [(d, [e])] from rfl, lookupB_cons_self, if_pos rfl,
        lookupB_nil]
      rfl
    · rw [show insertEvent [] k e = [(k, [e])] from rfl, lookupB_cons_ne hdk, if_neg hdk]
  | cons p rest ih =>
    obtain ⟨k₁, es⟩ := p
    by_cases h₁ : k₁ = k
    · subst h₁
      rw [show insertEvent ((k₁, es) :: rest) k₁ e = (k₁, es ++ [e]) :: rest from by
        simp [insertEvent]]
      by_cases hdk : d = k₁
      · subst hdk
        rw [lookupB_cons_self, if_pos rfl, lookupB_cons_self]
      · rw [lookupB_cons_ne hdk, if_neg hdk, lookupB_cons_ne hdk]
    · rw [show insertEvent ((k₁, es) :: rest) k e = (k₁, es) :: insertEvent rest k e from by
        simp [insertEvent, h₁]]
      by_cases hdk : d = k₁
      · subst hdk
        rw [lookupB_cons_self, if_neg (fun he => h₁ he), lookupB_cons_self]
      · rw [lookupB_cons_ne hdk, lookupB_cons_ne hdk, ih]

theorem mem_keys_insertEvent (g : List (String × List Event)) (k : String) (e : Event)
    (d : String) :
    d ∈ (insertEvent g k e).map Prod.fst ↔ d ∈ g.map Prod.fst ∨ d = k := by
  induction g with
  | nil =>
    rw [show insertEvent [] k e = [(k, [e])] from rfl]
    simp
  | cons p rest ih =>
    obtain ⟨k₁, es⟩ := p
    by_cases h₁ : k₁ = k
    · subst h₁
      rw [show insertEvent ((k₁, es) :: rest) k₁ e = (k₁, es ++ [e]) :: rest from by
        simp [insertEvent]]
      simp only [List.map_cons, List.mem_cons]
      constructor
      · rintro (rfl | h)
        · exact Or.inr rfl
        · exact Or.inl (Or.inr h)
      · rintro ((rfl | h) | rfl)
        · exact Or.inl rfl
        · exact Or.inr h
        · exact Or.inl rfl
    · rw [show insertEvent ((k₁, es) :: rest) k e = (k₁, es) :: insertEvent rest k e from by
        simp [insertEvent, h₁]]
      simp only [List.map_cons, List.mem_cons, ih]
      tauto

theorem nodup_keys_insertEvent (g : List (String × List Event)) (k : String) (e : Event)
    (h : (g.map Prod.fst).Nodup) : ((insertEvent g k e).map Prod.fst).Nodup := by
  induction g with
  | nil =>
    rw [show insertEvent [] k e = [(k, [e])] from rfl]
    simp
  | cons p rest ih =>
    obtain ⟨k₁, es⟩ := p
    simp only [List.map_cons, List.nodup_cons] at h
    by_cases h₁ : k₁ = k
    · subst h₁
      rw [show insertEvent ((k₁, es) :: rest) k₁ e = (k₁, es ++ [e]) :: rest from by
        simp [insertEvent]]
      simp only [List.map_cons, List.nodup_cons]
      exact h
    · rw [show insertEvent ((k₁, es) :: rest) k e = (k₁, es) :: insertEvent rest k e from by
        simp [insertEvent, h₁]]
      simp only [List.map_cons, List.nodup_cons]
      refine ⟨fun hm => ?_, ih h.2⟩
      rcases (mem_keys_insertEvent rest k e k₁).mp hm with hm | rfl
      · exact h.1 hm
      · exact h₁ rfl

/-! ## buildGroups lemmas -/

theorem lookupB_buildGroups (today : String) :
    ∀ (l : List Event) (acc : List (String × List Event)) (d : String),
      lookupB (buildGroups today l acc) d =
        lookupB acc d ++ (l.filter fun e => decide (keptKey today e = some d))
  | [], acc, d => by
    simp [buildGroups]
  | e :: rest, acc, d => by
    unfold buildGroups
    cases hk : keptKey today e with
    | none =>
      rw [lookupB_buildGroups today rest acc d]
      rw [show (List.filter (fun e => decide (keptKey today e = some d)) (e :: rest)) =
        List.filter (fun e => decide (keptKey today e = some d)) rest from by
          rw [List.filter_cons_of_neg (by simp [hk])]]
    | some k =>
      rw [lookupB_buildGroups today rest _ d, lookupB_insertEvent]
      by_cases hdk : d = k
      · subst hdk
        rw [List.filter_cons_of_pos (by simp [hk]), if_pos rfl, List.append_assoc]
        rfl
      · rw [List.filter_cons_of_neg (by
          simp only [hk, decide_eq_true_eq, Option.some.injEq]
          exact fun he => hdk he.symm), if_neg hdk]

theorem mem_keys_buildGroups (today : String) :
    ∀ (l : List Event) (acc : List (String × List Event)) (d : String),
      d ∈ (buildGroups today l acc).map Prod.fst ↔
        d ∈ acc.map Prod.fst ∨ ∃ e ∈ l, keptKey today e = some d
  | [], acc, d => by
    simp [buildGroups]
  | e :: rest, acc, d => by
    unfold buildGroups
    cases hk : keptKey today e with
    | none =>
      rw [mem_keys_buildGroups today rest acc d]
      simp only [List.mem_cons]
      constructor
      · rintro (h | ⟨x, hx, hkx⟩)
        · exact Or.inl h
        · exact Or.inr ⟨x, Or.inr hx, hkx⟩
      · rintro (h | ⟨x, rfl | hx, hkx⟩)
        · exact Or.inl h
        · rw [hk] at hkx
          exact absurd hkx (by simp)
        · exact Or.inr ⟨x, hx, hkx⟩
    | some k =>
      rw [mem_keys_buildGroups today rest _ d, mem_keys_insertEvent]
      simp only [List.mem_cons]
      constructor
      · rintro ((h | rfl) | ⟨x, hx, hkx⟩)
        · exact Or.inl h
        · exact Or.inr ⟨e, Or.inl rfl, hk⟩
        · exact Or.inr ⟨x, Or.inr hx, hkx⟩
      · rintro (h | ⟨x, rfl | hx, hkx⟩)
        · exact Or.inl (Or.inl h)
        · rw [hk] at hkx
          rw [Option.some.injEq] at hkx
          exact Or.inl (Or.inr hkx.symm)
        · exact Or.inr ⟨x, hx, hkx⟩

theorem nodup_keys_buildGroups (today : String) :
    ∀ (l : List Event) (acc : List (String × List Event)),
      (acc.map Prod.fst).Nodup → ((buildGroups today l acc).map Prod.fst).Nodup
  | [], acc, h => h
  | e :: rest, acc, h => by
    unfold buildGroups
    cases hk : keptKey today e with
    | none => exact nodup_keys_buildGroups today rest acc h
    | some k =>
      exact nodup_keys_buildGroups today rest _ (nodup_keys_insertEvent acc k e h)

/-! ## groupEventsByDate characterization -/

theorem keptKey_eq_some_iff {today : String} {e : Event} {d : String} :
    keptKey today e = some d ↔
      (normalizeDateToYMD e.date = some d ∧ ltbChars d.data today.data = false) := by
  unfold keptKey
  cases hn : normalizeDateToYMD e.date with
  | none => simp
  | some k =>
    simp only [Option.some.injEq]
    by_cases hlt : ltbChars k.data today.data
    · rw [if_pos hlt]
      constructor
      · intro h
        exact absurd h (by simp)
      · rintro ⟨rfl, hl⟩
        rw [hlt] at hl
        exact absurd hl (by simp)
    · rw [if_neg hlt]
      simp only [Option.some.injEq]
      constructor
      · rintro rfl
        exact ⟨rfl, by simpa using hlt⟩
      · rintro ⟨rfl, _⟩
        rfl

theorem groupEventsByDate_mem (today : String) (l : List Event) (e : Event) (d : String) :
    (∃ g ∈ groupEventsByDate today l, g.date = d ∧ e ∈ g.events) ↔
      (e ∈ l ∧ keptKey today e = some d) := by
  unfold groupEventsByDate
  constructor
  · rintro ⟨g, hg, hgd, hge⟩
    rw [List.mem_map] at hg
    obtain ⟨d₁, hd₁, rfl⟩ := hg
    have hd : d₁ = d := hgd
    subst hd
    have he : e ∈ lookupB (buildGroups today l []) d₁ :=
      (List.perm_insertionSort eventLe _).subset hge
    rw [lookupB_buildGroups today l [] d₁, lookupB_nil, List.nil_append] at he
    have hf := List.mem_filter.mp he
    exact ⟨hf.1, by simpa using hf.2⟩
  · rintro ⟨hel, hkey⟩
    have hmemf : e ∈ (l.filter fun x => decide (keptKey today x = some d)) :=
      List.mem_filter.mpr ⟨hel, by simp [hkey]⟩
    have hlook : e ∈ lookupB (buildGroups today l []) d := by
      rw [lookupB_buildGroups today l [] d, lookupB_nil, List.nil_append]
      exact hmemf
    have hdkeys : d ∈ (buildGroups today l []).map Prod.fst := by
      rw [mem_keys_buildGroups today l [] d]
      exact Or.inr ⟨e, hel, hkey⟩
    have hddates : d ∈ List.insertionSort dateLe ((buildGroups today l []).map Prod.fst) :=
      (List.perm_insertionSort dateLe _).mem_iff.mpr hdkeys
    refine ⟨⟨d, List.insertionSort eventLe (lookupB (buildGroups today l []) d)⟩,
      List.mem_map.mpr ⟨d, hddates, rfl⟩, rfl, ?_⟩
    exact (List.perm_insertionSort eventLe _).mem_iff.mpr hlook

theorem groupEventsByDate_dates_strict_sorted (today : String) (l : List Event) :
    ((groupEventsByDate today l).map EventGroup.date).Pairwise
      (fun a b => ltbChars a.data b.data = true) := by
  unfold groupEventsByDate
  rw [List.map_map]
  have hmap : (EventGroup.date ∘ fun d =>
      EventGroup.mk d (List.insertionSort eventLe (lookupB (buildGroups today l []) d))) =
      id := rfl
  rw [hmap, List.map_id]
  have hsorted : List.Sorted dateLe
      (List.insertionSort dateLe ((buildGroups today l []).map Prod.fst)) :=
    List.sorted_insertionSort dateLe _
  have hnodup : (List.insertionSort dateLe ((buildGroups today l []).map Prod.fst)).Nodup :=
    ((List.perm_insertionSort dateLe _).nodup_iff).mpr
      (nodup_keys_buildGroups today l [] List.nodup_nil)
  have := List.Pairwise.and hsorted hnodup
  refine this.imp ?_
  rintro a b ⟨hle, hne⟩
  exact ltbChars_true_of_false_of_ne hle fun he =>
    hne (string_eq_of_data_eq he)

theorem groupEventsByDate_events_sorted (today : String) (l : List Event) :
    ∀ g ∈ groupEventsByDate today l, g.events.Pairwise eventLe := by
  intro g hg
  unfold groupEventsByDate at hg
  rw [List.mem_map] at hg
  obtain ⟨d, _, rfl⟩ := hg
  exact List.sorted_insertionSort eventLe _

/-! ## Claim C2 -/

/-- C2: for a fixed `today`, `groupEventsByDate` outputs exactly the events
whose normalized date is present and not strictly less than `today`
(same-day events included, strictly-earlier and dateless ones excluded),
bucketed by normalized date; the groups are in strictly ascending
lexicographic date order, and inside each group events are in ascending
`(parsed time, title)` comparator order.  On two same-date `"7:00 PM"`
events titled `"Zebra"` and `"Apple"`, `"Apple"` comes out first. -/
theorem claim_C2_grouping_spec :
    (∀ (today : String) (l : List Event) (e : Event) (d : String),
      (∃ g ∈ groupEventsByDate today l, g.date = d ∧ e ∈ g.events) ↔
        (e ∈ l ∧ normalizeDateToYMD e.date = some d ∧ ltbChars d.data today.data = false)) ∧
    (∀ (today : String) (l : List Event),
      ((groupEventsByDate today l).map EventGroup.date).Pairwise
        fun a b => ltbChars a.data b.data = true) ∧
    (∀ (today : String) (l : List Event), ∀ g ∈ groupEventsByDate today l,
      g.events.Pairwise eventLe) ∧
    groupEventsByDate "2025-01-01"
      [⟨some "Zebra", some "2025-06-07", some "7:00 PM", none, none, none⟩,
       ⟨some "Apple", some "2025-06-07", some "7:00 PM", none, none, none⟩] =
      [⟨"2025-06-07",
        [⟨some "Apple", some "2025-06-07", some "7:00 PM", none, none, none⟩,
         ⟨some "Zebra", some "2025-06-07", some "7:00 PM", none, none, none⟩]⟩] := by
  refine ⟨fun today l e d => ?_, groupEventsByDate_dates_strict_sorted,
    groupEventsByDate_events_sorted, by decide⟩
  rw [groupEventsByDate_mem today l e d, keptKey_eq_some_iff]

theorem claim_C2_witness :
    ((⟨"2025-06-07",
        [⟨some "Apple", some "2025-06-07", some "7:00 PM", none, none, none⟩,
         ⟨some "Zebra", some "2025-06-07", some "7:00 PM", none, none, none⟩]⟩ : EventGroup) ∈
      groupEventsByDate "2025-01-01"
        [⟨some "Zebra", some "2025-06-07", some "7:00 PM", none, none, none⟩,
         ⟨some "Apple", some "2025-06-07", some "7:00 PM", none, none, none⟩]) ∧
    ([⟨some "Apple", some "2025-06-07", some "7:00 PM", none, none, none⟩,
      ⟨some "Zebra", some "2025-06-07", some "7:00 PM", none, none, none⟩] :
        List Event).Pairwise eventLe :=
  ⟨by decide,
    claim_C2_grouping_spec.2.2.1 "2025-01-01"
      [⟨some "Zebra", some "2025-06-07", some "7:00 PM", none, none, none⟩,
       ⟨some "Apple", some "2025-06-07", some "7:00 PM", none, none, none⟩]
      ⟨"2025-06-07",
        [⟨some "Apple", some "2025-06-07", some "7:00 PM", none, none, none⟩,
         ⟨some "Zebra", some "2025-06-07", some "7:00 PM", none, none, none⟩]⟩
      (by decide)⟩

/-! ## Claim C4 -/

/-- C4: the time parser maps valid inputs to minutes since midnight.  A
24-hour `H:MM` input with hour ≤ 23 and minute ≤ 59 parses to
`hour*60+minute`.  A 12-hour `H:MM AM/PM` input requires hour in `[1,12]`
(hour 0, or 13–23, with a suffix gives the sentinel); `12 AM` maps to
minute-of-day `m`, `12 PM` to `720+m`, other `PM` hours add 720, other `AM`
hours map plainly; and `parseTime "7:00 PM" = parseTime "19:00" = 1140`. -/
theorem claim_C4_parseTime_values :
    (∀ h m : Nat, h ≤ 23 → m ≤ 59 →
      parseTimeToMinutes (some (render24 h m)) = some (h * 60 + m)) ∧
    (∀ m : Nat, m ≤ 59 → parseTimeToMinutes (some (render12 12 m AmPm.am)) = some m) ∧
    (∀ m : Nat, m ≤ 59 → parseTimeToMinutes (some (render12 12 m AmPm.pm)) = some (720 + m)) ∧
    (∀ h m : Nat, 1 ≤ h → h ≤ 11 → m ≤ 59 →
      parseTimeToMinutes (some (render12 h m AmPm.pm)) = some (h * 60 + m + 720)) ∧
    (∀ h m : Nat, 1 ≤ h → h ≤ 11 → m ≤ 59 →
      parseTimeToMinutes (some (render12 h m AmPm.am)) = some (h * 60 + m)) ∧
    (∀ (h m : Nat) (ap : AmPm), 13 ≤ h → h ≤ 23 → m ≤ 59 →
      parseTimeToMinutes (some (render12 h m ap)) = none) ∧
    (∀ (m : Nat) (ap : AmPm), m ≤ 59 →
      parseTimeToMinutes (some (render12 0 m ap)) = none) ∧
    parseTimeToMinutes (some "7:00 PM") = some 1140 ∧
    parseTimeToMinutes (some "19:00") = some 1140 := by
  refine ⟨fun h m hh hm => parseTime_render24 hh hm, fun m hm => ?_, fun m hm => ?_,
    fun h m h1 h11 hm => ?_, fun h m h1 h11 hm => ?_, fun h m ap h13 h23 hm => ?_,
    fun m ap hm => ?_, by decide, by decide⟩
  · rw [parseTime_render12 AmPm.am (by omega) hm, if_neg (by omega)]
    show some ((if 12 = 12 then 0 else 12) * 60 + m) = some m
    simp
  · rw [parseTime_render12 AmPm.pm (by omega) hm, if_neg (by omega)]
    show some ((if 12 = 12 then 12 else 12 + 12) * 60 + m) = some (720 + m)
    norm_num
  · rw [parseTime_render12 AmPm.pm (by omega) hm, if_neg (by omega)]
    show some ((if h = 12 then 12 else h + 12) * 60 + m) = some (h * 60 + m + 720)
    rw [if_neg (by omega)]
    congr 1
    ring
  · rw [parseTime_render12 AmPm.am (by omega) hm, if_neg (by omega)]
    show some ((if h = 12 then 0 else h) * 60 + m) = some (h * 60 + m)
    rw [if_neg (by omega)]
  · rw [parseTime_render12 ap (by omega) hm, if_pos (by omega)]
  · rw [parseTime_render12 ap (by omega) hm, if_pos (by omega)]

theorem claim_C4_witness :
    ((19 : Nat) ≤ 23 ∧ (0 : Nat) ≤ 59 ∧
      parseTimeToMinutes (some (render24 19 0)) = some (19 * 60 + 0)) ∧
    ((1 : Nat) ≤ 7 ∧ (7 : Nat) ≤ 11 ∧ (0 : Nat) ≤ 59 ∧
      parseTimeToMinutes (some (render12 7 0 AmPm.pm)) = some (7 * 60 + 0 + 720)) :=
  ⟨⟨by decide, by decide, claim_C4_parseTime_values.1 19 0 (by decide) (by decide)⟩,
    ⟨by decide, by decide, by decide,
      claim_C4_parseTime_values.2.2.2.1 7 0 (by decide) (by decide) (by decide)⟩⟩

/-! ## Claim C5 -/

/-- C5: the time parser is total and maps `""`, `"25:00"` and `"13 PM"` to
the unknown/TBA sentinel, and inside every date group produced by the
pipeline, once a sentinel-time event appears every later event of the group
also has the sentinel time — i.e. sentinel-time events sort after all
valid-time events of their group. -/
theorem claim_C5_sentinel_sorts_last :
    parseTimeToMinutes (some "") = none ∧
    parseTimeToMinutes (some "25:00") = none ∧
    parseTimeToMinutes (some "13 PM") = none ∧
    (∀ (today : String) (l : List Event), ∀ g ∈ groupEventsByDate today l,
      g.events.Pairwise fun a b => timeVal a = none → timeVal b = none) := by
  refine ⟨by decide, by decide, by decide, fun today l g hg => ?_⟩
  exact (groupEventsByDate_events_sorted today l g hg).imp fun h ha =>
    eventLe_none_mono h ha

theorem claim_C5_witness :
    ((⟨"2025-06-07",
        [⟨some "Gig", some "2025-06-07", some "7:00 PM", none, none, none⟩,
         ⟨some "Later", some "2025-06-07", none, none, none, none⟩]⟩ : EventGroup) ∈
      groupEventsByDate "2025-01-01"
        [⟨some "Later", some "2025-06-07", none, none, none, none⟩,
         ⟨some "Gig", some "2025-06-07", some "7:00 PM", none, none, none⟩]) ∧
    ([⟨some "Gig", some "2025-06-07", some "7:00 PM", none, none, none⟩,
      ⟨some "Later", some "2025-06-07", none, none, none, none⟩] :
        List Event).Pairwise (fun a b => timeVal a = none → timeVal b = none) :=
  ⟨by decide,
    claim_C5_sentinel_sorts_last.2.2.2 "2025-01-01"
      [⟨some "Later", some "2025-06-07", none, none, none, none⟩,
       ⟨some "Gig", some "2025-06-07", some "7:00 PM", none, none, none⟩]
      ⟨"2025-06-07",
        [⟨some "Gig", some "2025-06-07", some "7:00 PM", none, none, none⟩,
         ⟨some "Later", some "2025-06-07", none, none, none, none⟩]⟩
      (by decide)⟩

/-! ## Filter pipeline lemmas -/

theorem except_ok_bind {α β : Type} (a : α) (f : α → Except String β) :
    (Except.ok a >>= f) = f a := rfl

theorem genres_toFinset_card : GENRES.toFinset.card = GENRES.length := by decide

/-- The pipeline with no single-dimension filter and no search term reduces
to the genre three-way decision. -/
theorem filteredEvents_genre_stage (l : List Event) (s : Finset String) :
    filteredEvents (JsArr.arr l) none (some s) "" =
      if s.card = 0 then Except.ok (JsArr.arr [])
      else if s.card ≠ GENRES.length then
        Except.ok (JsArr.arr (l.filter fun e => (e.genres.getD []).any fun g => decide (g ∈ s)))
      else Except.ok (JsArr.arr l) := by
  simp only [filteredEvents, pure_bind]
  by_cases h0 : s.card = 0
  · rw [if_pos h0, if_pos h0]
    rfl
  · rw [if_neg h0, if_neg h0]
    by_cases h17 : s.card ≠ GENRES.length
    · rw [if_pos h17, if_pos h17]
      rfl
    · rw [if_neg h17, if_neg h17]
      rfl

/-! ## Claim C3 -/

/-- C3: with no other filter active, an empty selected-genre set yields the
empty result even on a non-empty collection; the full genre enumeration
skips genre filtering entirely (events lacking genres still pass, the input
list is returned unchanged); any other selection drawn from the enumeration
keeps exactly the events having at least one genre in the selected set. -/
theorem claim_C3_genre_filter :
    ∀ (l : List Event) (s : Finset String), (∀ g ∈ s, g ∈ GENRES) →
      (s = ∅ → filteredEvents (JsArr.arr l) none (some s) "" = Except.ok (JsArr.arr [])) ∧
      (s = GENRES.toFinset →
        filteredEvents (JsArr.arr l) none (some s) "" = Except.ok (JsArr.arr l)) ∧
      (s ≠ ∅ → s ≠ GENRES.toFinset →
        filteredEvents (JsArr.arr l) none (some s) "" =
          Except.ok (JsArr.arr (l.filter fun e =>
            (e.genres.getD []).any fun g => decide (g ∈ s)))) := by
  intro l s hsub
  have hsubf : s ⊆ GENRES.toFinset := fun g hg => List.mem_toFinset.mpr (hsub g hg)
  refine ⟨fun he => ?_, fun hall => ?_, fun hne hne2 => ?_⟩
  · subst he
    rw [filteredEvents_genre_stage, if_pos Finset.card_empty]
  · subst hall
    rw [filteredEvents_genre_stage, if_neg (by rw [genres_toFinset_card]; decide),
      if_neg (by rw [genres_toFinset_card]; simp)]
  · have h0 : ¬ s.card = 0 := fun h => hne (Finset.card_eq_zero.mp h)
    have h17 : s.card ≠ GENRES.length := by
      intro h
      have hle : GENRES.toFinset.card ≤ s.card := by
        rw [genres_toFinset_card, h]
      exact hne2 (Finset.eq_of_subset_of_card_le hsubf hle)
    rw [filteredEvents_genre_stage, if_neg h0, if_pos h17]

theorem claim_C3_witness :
    (∀ g ∈ ({"Jazz"} : Finset String), g ∈ GENRES) ∧
    ({"Jazz"} : Finset String) ≠ ∅ ∧ ({"Jazz"} : Finset String) ≠ GENRES.toFinset ∧
    filteredEvents (JsArr.arr []) none (some ({"Jazz"} : Finset String)) "" =
      Except.ok (JsArr.arr (([] : List Event).filter fun e =>
        (e.genres.getD []).any fun g => decide (g ∈ ({"Jazz"} : Finset String)))) :=
  ⟨by decide, by decide, by decide,
    (claim_C3_genre_filter [] {"Jazz"} (by decide)).2.2 (by decide) (by decide)⟩

/-! ## Claim C9 -/

/-- C9: with the default all-genres selection and empty search, an active
venue filter keeps exactly the events whose `venueId` equals the selected
venue id (plain equality), and an active partner filter keeps exactly the
events whose `partnerIds` contains an id whose normalized slug equals the
normalized slug of the selected partner id. -/
theorem claim_C9_single_dimension_filter :
    ∀ (l : List Event) (id : String), id ≠ "" →
      (filteredEvents (JsArr.arr l) (some ⟨FilterType.venue, id⟩)
          (some GENRES.toFinset) "" =
        Except.ok (JsArr.arr (l.filter fun e => decide (e.venueId = some id)))) ∧
      (filteredEvents (JsArr.arr l) (some ⟨FilterType.partner, id⟩)
          (some GENRES.toFinset) "" =
        Except.ok (JsArr.arr (l.filter fun e =>
          (e.partnerIds.getD []).any fun pid =>
            decide (slugifyId (some pid) = slugifyId (some id))))) := by
  intro l id hid
  constructor
  · simp only [filteredEvents, pure_bind]
    rw [if_pos hid]
    rfl
  · simp only [filteredEvents, pure_bind]
    rw [if_pos hid]
    rfl

theorem claim_C9_witness :
    ("strummers" : String) ≠ "" ∧
    filteredEvents (JsArr.arr []) (some ⟨FilterType.venue, "strummers"⟩)
        (some GENRES.toFinset) "" =
      Except.ok (JsArr.arr (([] : List Event).filter fun e =>
        decide (e.venueId = some "strummers"))) :=
  ⟨by decide, (claim_C9_single_dimension_filter [] "strummers" (by decide)).1⟩

/-! ## Claim C1 -/

theorem filteredEvents_arr_ok (l : List Event) (filt : Option SelFilter)
    (sel : Option (Finset String)) (q : String) :
    ∃ l2, filteredEvents (JsArr.arr l) filt sel q = Except.ok (JsArr.arr l2) := by
  have hsearch : ∀ w : List Event, ∃ l2,
      (if jsToLower (jsTrim q) ≠ "" then
        jsFilter (JsArr.arr w) fun e =>
          decide ((jsToLower (jsTrim q)).data <:+: (jsToLower (e.title.getD "")).data)
      else pure (JsArr.arr w)) = Except.ok (JsArr.arr l2) := by
    intro w
    by_cases hq : jsToLower (jsTrim q) ≠ ""
    · rw [if_pos hq]
      exact ⟨_, rfl⟩
    · rw [if_neg hq]
      exact ⟨_, rfl⟩
  have tail : ∀ v : List Event, ∃ l2,
      filteredEvents (JsArr.arr v) none sel q = Except.ok (JsArr.arr l2) := by
    intro v
    rcases sel with _ | s
    · obtain ⟨l2, h⟩ := hsearch v
      exact ⟨l2, h⟩
    · by_cases h0 : s.card = 0
      · obtain ⟨l2, h⟩ := hsearch []
        refine ⟨l2, ?_⟩
        simp only [filteredEvents, pure_bind]
        rw [if_pos h0]
        exact h
      · by_cases h17 : s.card ≠ GENRES.length
        · obtain ⟨l2, h⟩ :=
            hsearch (v.filter fun e => (e.genres.getD []).any fun g => decide (g ∈ s))
          refine ⟨l2, ?_⟩
          simp only [filteredEvents, pure_bind]
          rw [if_neg h0, if_pos h17]
          exact h
        · obtain ⟨l2, h⟩ := hsearch v
          refine ⟨l2, ?_⟩
          simp only [filteredEvents, pure_bind]
          rw [if_neg h0, if_neg h17]
          exact h
  rcases filt with _ | ⟨ft, id⟩
  · exact tail l
  · cases ft
    · by_cases hid : id ≠ ""
      · obtain ⟨l2, h⟩ := tail (l.filter fun e => decide (e.venueId = some id))
        refine ⟨l2, ?_⟩
        simp only [filteredEvents, pure_bind]
        rw [if_pos hid]
        exact h
      · obtain ⟨l2, h⟩ := tail l
        refine ⟨l2, ?_⟩
        simp only [filteredEvents, pure_bind]
        rw [if_neg hid]
        exact h
    · by_cases hid : id ≠ ""
      · obtain ⟨l2, h⟩ := tail (l.filter fun e =>
          (e.partnerIds.getD []).any fun pid =>
            decide (slugifyId (some pid) = slugifyId (some id)))
        refine ⟨l2, ?_⟩
        simp only [filteredEvents, pure_bind]
        rw [if_pos hid]
        exact h
      · obtain ⟨l2, h⟩ := tail l
        refine ⟨l2, ?_⟩
        simp only [filteredEvents, pure_bind]
        rw [if_neg hid]
        exact h

/-- C1 counterexample: the claim asserts the pipeline returns an empty
result and never raises when the event collection is absent or not a
sequence; in fact, under the default filter state (all genres selected, no
search) the pipeline throws a `TypeError` on a non-sequence collection. -/
theorem claim_C1_counterexample :
    pipeline "2025-01-01" JsArr.notSeq none (some GENRES.toFinset) "" =
      Except.error "TypeError" := rfl

/-- C1 (amended): when the event collection is an actual sequence the
pipeline is total — it returns a result for every filter state and however
malformed the individual records are — but when the collection is absent or
not a sequence it raises a `TypeError` (under the default filter state)
instead of returning an empty result. -/
theorem claim_C1_pipeline_totality :
    (∀ (today : String) (l : List Event) (filt : Option SelFilter)
      (sel : Option (Finset String)) (q : String),
      ∃ out, pipeline today (JsArr.arr l) filt sel q = Except.ok out) ∧
    pipeline "2025-01-01" JsArr.notSeq none (some GENRES.toFinset) "" =
      Except.error "TypeError" := by
  refine ⟨fun today l filt sel q => ?_, rfl⟩
  obtain ⟨l2, h⟩ := filteredEvents_arr_ok l filt sel q
  refine ⟨groupEventsByDate today l2, ?_⟩
  unfold pipeline
  rw [h]
  rfl

/-! ## Slug idempotence (Claim C10) -/

theorem alnum_ne_dash {c : Char} (h : isLowerAlnum c = true) : c ≠ '-' := by
  intro he
  subst he
  exact absurd h (by decide)

theorem alnum_or_dash_not_ws {c : Char} (h : isLowerAlnum c = true ∨ c = '-') :
    jsWs c = false := by
  rcases h with h | rfl
  · simp only [isLowerAlnum, Bool.or_eq_true, Bool.and_eq_true, decide_eq_true_eq] at h
    simp only [jsWs, Bool.or_eq_false_iff, decide_eq_false_iff_not]
    omega
  · decide

theorem alnum_or_dash_toLower {c : Char} (h : isLowerAlnum c = true ∨ c = '-') :
    Char.toLower c = c := by
  rcases h with h | rfl
  · simp only [isLowerAlnum, Bool.or_eq_true, Bool.and_eq_true, decide_eq_true_eq] at h
    unfold Char.toLower
    rw [if_neg (by omega)]
  · decide

theorem alnum_or_dash_not_amp {c : Char} (h : isLowerAlnum c = true ∨ c = '-') :
    (c == '&') = false := by
  rw [beq_eq_false_iff_ne]
  rcases h with h | rfl
  · intro he
    subst he
    exact absurd h (by decide)
  · decide

theorem map_eq_self_of_fix {f : Char → Char} : ∀ {l : List Char},
    (∀ c ∈ l, f c = c) → l.map f = l
  | [], _ => rfl
  | c :: t, h => by
    rw [List.map_cons, h c (List.mem_cons_self c t),
      map_eq_self_of_fix fun x hx => h x (List.mem_cons_of_mem c hx)]

theorem expandAmp_eq_self : ∀ {l : List Char},
    (∀ c ∈ l, (c == '&') = false) → expandAmp l = l
  | [], _ => rfl
  | c :: t, h => by
    unfold expandAmp
    rw [h c (List.mem_cons_self c t),
      expandAmp_eq_self fun x hx => h x (List.mem_cons_of_mem c hx)]
    rfl

/-- Characters of the collapse output are lowercase alphanumerics or dashes. -/
theorem collapseAux_chars (b : Bool) (l : List Char) :
    ∀ c ∈ collapseAux b l, isLowerAlnum c = true ∨ c = '-' := by
  induction l generalizing b with
  | nil =>
    intro c hc
    simp [collapseAux] at hc
  | cons x rest ih =>
    intro c hc
    unfold collapseAux at hc
    by_cases hx : isLowerAlnum x
    · rw [if_pos hx] at hc
      rcases List.mem_cons.mp hc with rfl | hc
      · exact Or.inl hx
      · exact ih false c hc
    · rw [if_neg hx] at hc
      cases b with
      | true => exact ih true c (by simpa using hc)
      | false =>
        rcases List.mem_cons.mp (by simpa using hc) with rfl | hc2
        · exact Or.inr rfl
        · exact ih true c hc2

/-- In skip mode, the collapse output starts with an alphanumeric. -/
theorem collapseAux_true_head (l : List Char) :
    ∀ c, (collapseAux true l).head? = some c → isLowerAlnum c = true := by
  induction l with
  | nil =>
    intro c hc
    simp [collapseAux] at hc
  | cons x rest ih =>
    intro c hc
    unfold collapseAux at hc
    by_cases hx : isLowerAlnum x
    · rw [if_pos hx] at hc
      simp only [List.head?_cons, Option.some.injEq] at hc
      exact hc ▸ hx
    · rw [if_neg hx] at hc
      exact ih c (by simpa using hc)

/-- Every dash in the collapse output is followed by an alphanumeric. -/
theorem collapseAux_chain (b : Bool) (l : List Char) :
    (collapseAux b l).Chain' fun a c => a = '-' → isLowerAlnum c = true := by
  induction l generalizing b with
  | nil => simp [collapseAux]
  | cons x rest ih =>
    unfold collapseAux
    by_cases hx : isLowerAlnum x
    · rw [if_pos hx, List.chain'_cons']
      exact ⟨fun y _ hxd => absurd hxd (alnum_ne_dash hx), ih false⟩
    · rw [if_neg hx]
      cases b with
      | true => simpa using ih true
      | false =>
        have : ('-' :: collapseAux true rest).Chain'
            (fun a c => a = '-' → isLowerAlnum c = true) := by
          rw [List.chain'_cons']
          refine ⟨fun y hy _ => ?_, ih true⟩
          exact collapseAux_true_head rest y hy
        simpa using this

/-- `stripDashes l` sits inside `l`: it has a prefix and a suffix context. -/
theorem stripDashes_decomp (l : List Char) :
    ∃ pre post, pre ++ (stripDashes l ++ post) = l := by
  unfold stripDashes
  obtain ⟨pre, hpre⟩ : (l.dropWhile fun c => c == '-') <:+ l := List.dropWhile_suffix _
  obtain ⟨post, hpost⟩ :
      ((l.dropWhile fun c => c == '-').reverse.dropWhile fun c => c == '-') <:+
        (l.dropWhile fun c => c == '-').reverse := List.dropWhile_suffix _
  refine ⟨pre, post.reverse, ?_⟩
  rw [show ((l.dropWhile fun c => c == '-').reverse.dropWhile fun c => c == '-').reverse ++
      post.reverse =
      (post ++ ((l.dropWhile fun c => c == '-').reverse.dropWhile fun c => c == '-')).reverse
    from (List.reverse_append _ _).symm]
  rw [hpost, List.reverse_reverse, hpre]

theorem mem_stripDashes {l : List Char} {c : Char} (h : c ∈ stripDashes l) : c ∈ l := by
  obtain ⟨pre, post, hd⟩ := stripDashes_decomp l
  rw [← hd]
  simp [h]

theorem chain_stripDashes {R : Char → Char → Prop} {l : List Char} (h : l.Chain' R) :
    (stripDashes l).Chain' R := by
  obtain ⟨pre, post, hd⟩ := stripDashes_decomp l
  rw [← hd, List.chain'_append] at h
  exact (List.chain'_append.mp h.2.1).1

theorem head?_dropWhile_not (p : Char → Bool) (l : List Char) :
    ∀ c, (l.dropWhile p).head? = some c → p c = false := by
  induction l with
  | nil =>
    intro c hc
    simp at hc
  | cons x rest ih =>
    intro c hc
    rw [List.dropWhile_cons] at hc
    by_cases hx : p x
    · exact ih c (by simpa [hx] using hc)
    · simp only [if_neg hx, List.head?_cons, Option.some.injEq] at hc
      subst hc
      exact Bool.eq_false_iff.mpr hx

theorem head?_of_append {l t : List Char} {c : Char} (h : l.head? = some c) :
    (l ++ t).head? = some c := by
  cases l with
  | nil => simp at h
  | cons a r => simpa using h

/-- The clean part of `stripDashes l` as a prefix of the left-trimmed list. -/
theorem stripDashes_pre (l : List Char) :
    ∃ t, stripDashes l ++ t = l.dropWhile fun c => c == '-' := by
  unfold stripDashes
  obtain ⟨post, hpost⟩ :
      ((l.dropWhile fun c => c == '-').reverse.dropWhile fun c => c == '-') <:+
        (l.dropWhile fun c => c == '-').reverse := List.dropWhile_suffix _
  refine ⟨post.reverse, ?_⟩
  rw [show ((l.dropWhile fun c => c == '-').reverse.dropWhile fun c => c == '-').reverse ++
      post.reverse =
      (post ++ ((l.dropWhile fun c => c == '-').reverse.dropWhile fun c => c == '-')).reverse
    from (List.reverse_append _ _).symm]
  rw [hpost, List.reverse_reverse]

theorem stripDashes_head (l : List Char) :
    ∀ c, (stripDashes l).head? = some c → (c == '-') = false := by
  intro c hc
  obtain ⟨t, ht⟩ := stripDashes_pre l
  exact head?_dropWhile_not _ l c (ht ▸ head?_of_append hc)

theorem stripDashes_last (l : List Char) :
    ∀ c, (stripDashes l).getLast? = some c → (c == '-') = false := by
  intro c hc
  unfold stripDashes at hc
  rw [List.getLast?_reverse] at hc
  exact head?_dropWhile_not _ _ c hc

/-- The collapse pass fixes a list of alphanumerics and isolated dashes with
no trailing dash. -/
theorem collapseAux_fix : ∀ l : List Char,
    (∀ c ∈ l, isLowerAlnum c = true ∨ c = '-') →
    (l.Chain' fun a b => a = '-' → isLowerAlnum b = true) →
    (∀ c, l.getLast? = some c → c ≠ '-') →
    collapseAux false l = l
  | [], _, _, _ => rfl
  | [c], hok, _, hlast => by
    rcases hok c (List.mem_singleton.mpr rfl) with h | h
    · simp [collapseAux, h]
    · exact absurd h (hlast c rfl)
  | c :: d :: rest, hok, hchain, hlast => by
    have htail := collapseAux_fix (d :: rest)
      (fun x hx => hok x (List.mem_cons_of_mem c hx))
      (List.chain'_cons.mp hchain).2
      (fun x hx => hlast x (by rwa [List.getLast?_cons_cons]))
    rcases hok c (List.mem_cons_self _ _) with hc | hc
    · rw [show collapseAux false (c :: d :: rest) = c :: collapseAux false (d :: rest) from by
        simp [collapseAux, hc], htail]
    · subst hc
      have hd : isLowerAlnum d = true := (List.chain'_cons.mp hchain).1 rfl
      have h1 : collapseAux false ('-' :: d :: rest) = '-' :: collapseAux true (d :: rest) := rfl
      have h2 : collapseAux true (d :: rest) = collapseAux false (d :: rest) := by
        rw [show collapseAux true (d :: rest) =
          (if isLowerAlnum d then d :: collapseAux false rest
           else collapseAux true rest) from rfl]
        rw [show collapseAux false (d :: rest) =
          (if isLowerAlnum d then d :: collapseAux false rest
           else '-' :: collapseAux true rest) from rfl]
        rw [if_pos hd, if_pos hd]
      rw [h1, h2, htail]

theorem stripDashes_eq_self {l : List Char}
    (hhead : ∀ c, l.head? = some c → (c == '-') = false)
    (hlast : ∀ c, l.getLast? = some c → (c == '-') = false) :
    stripDashes l = l := by
  unfold stripDashes
  rw [dropWhile_eq_self_of_head hhead]
  rw [dropWhile_eq_self_of_head fun c hc => hlast c (by rwa [List.head?_reverse] at hc)]
  exact List.reverse_reverse l

/-- Applying the slug chain to an already-slugged character list fixes it. -/
theorem slug_fix_of_props {r : List Char}
    (hchars : ∀ c ∈ r, isLowerAlnum c = true ∨ c = '-')
    (hchain : r.Chain' fun a b => a = '-' → isLowerAlnum b = true)
    (hhead : ∀ c, r.head? = some c → (c == '-') = false)
    (hlast : ∀ c, r.getLast? = some c → (c == '-') = false) :
    stripDashes (collapseAux false (expandAmp ((jsTrimList r).map Char.toLower))) = r := by
  rw [jsTrimList_eq_self_of_mem fun c hc => alnum_or_dash_not_ws (hchars c hc)]
  rw [map_eq_self_of_fix fun c hc => alnum_or_dash_toLower (hchars c hc)]
  rw [expandAmp_eq_self fun c hc => alnum_or_dash_not_amp (hchars c hc)]
  rw [collapseAux_fix r hchars hchain fun c hc =>
    (beq_eq_false_iff_ne).mp (hlast c hc)]
  exact stripDashes_eq_self hhead hlast

/-! ## Claim C10 -/

/-- `slugifyId` on a present string, unfolded. -/
theorem slugifyId_some_eq (t : String) :
    slugifyId (some t) =
      ⟨stripDashes (collapseAux false (expandAmp ((jsTrimList t.data).map Char.toLower)))⟩ :=
  rfl

/-- C10: the identifier normalization used for partner matching is
idempotent — slugging an already-slugged identifier returns it unchanged,
so an identifier stored in slug form matches the slug of its display
form. -/
theorem claim_C10_slugifyId_idempotent :
    ∀ s : String, slugifyId (some (slugifyId (some s))) = slugifyId (some s) := by
  intro s
  rw [slugifyId_some_eq (slugifyId (some s))]
  rw [show (slugifyId (some s)).data =
    stripDashes (collapseAux false (expandAmp ((jsTrimList s.data).map Char.toLower))) from rfl]
  rw [slug_fix_of_props
    (fun c hc => collapseAux_chars false _ c (mem_stripDashes hc))
    (chain_stripDashes (collapseAux_chain false _))
    (stripDashes_head _)
    (stripDashes_last _)]
  rw [← slugifyId_some_eq s]

end FMC